import Mathlib

/-!
Verification development for the portfolio optimizer/analyzer repository
(`utils_pkg/utils.py`, `main.py`).  The data model and operations below are
shallow embeddings of the Python source: pandas/numpy numeric columns are
modelled with exact rationals, and the places where numpy IEEE semantics
matter (division by zero producing infinities and NaN rather than raising)
are modelled with an extended value domain `PandasVal`.
-/

set_option allowUnsafeReducibility true
attribute [semireducible] Rat.add Rat.mul Rat.sub Rat.inv

/-- Extended value domain for numpy/pandas float arithmetic: an exact
rational for finite values, plus positive infinity, negative infinity and
NaN.  numpy elementwise division by zero yields an infinity (with a runtime
warning, not an exception), and `inf - inf`, `inf / inf`, `0/0` yield NaN. -/
inductive PandasVal where
  | fin : ℚ → PandasVal
  | pinf : PandasVal
  | ninf : PandasVal
  | nan : PandasVal
deriving DecidableEq

/-- Addition on `PandasVal`, following IEEE-754 float addition. -/
def padd : PandasVal → PandasVal → PandasVal
  | .nan, _ => .nan
  | .fin _, .nan => .nan
  | .pinf, .nan => .nan
  | .ninf, .nan => .nan
  | .fin a, .fin b => .fin (a + b)
  | .fin _, .pinf => .pinf
  | .pinf, .fin _ => .pinf
  | .fin _, .ninf => .ninf
  | .ninf, .fin _ => .ninf
  | .pinf, .pinf => .pinf
  | .ninf, .ninf => .ninf
  | .pinf, .ninf => .nan
  | .ninf, .pinf => .nan

/-- Division on `PandasVal`, following IEEE-754 float division (a finite
zero denominator behaves as +0, which is what pandas stores for a literal
zero value). -/
def pdiv : PandasVal → PandasVal → PandasVal
  | .nan, _ => .nan
  | .fin _, .nan => .nan
  | .pinf, .nan => .nan
  | .ninf, .nan => .nan
  | .fin a, .fin b =>
      if b = 0 then (if a = 0 then .nan else if 0 < a then .pinf else .ninf)
      else .fin (a / b)
  | .fin _, .pinf => .fin 0
  | .fin _, .ninf => .fin 0
  | .pinf, .fin b => if 0 ≤ b then .pinf else .ninf
  | .ninf, .fin b => if 0 ≤ b then .ninf else .pinf
  | .pinf, .pinf => .nan
  | .pinf, .ninf => .nan
  | .ninf, .pinf => .nan
  | .ninf, .ninf => .nan

/-- Reciprocal of a finite pandas value, as computed by the numpy expression
on utils.py line 49 (`1/metrics_df_global['avg_beta']`): a zero beta yields
`+inf` (numpy emits a warning but raises no exception), a non-zero beta the
exact reciprocal. -/
def pinv (b : ℚ) : PandasVal := if b = 0 then .pinf else .fin b⁻¹

/-- Sum of a pandas column (`Series.sum`). -/
def psum (l : List PandasVal) : PandasVal := l.foldr padd (.fin 0)

/-- Sector-weight computation of utils.py lines 49-50:
`inverse_beta = 1/metrics_df_global['avg_beta']` followed by
`inverse_beta/inverse_beta.sum()`, one weight per sector in table order. -/
def sector_wieghts_vals (betas : List ℚ) : List PandasVal :=
  let inverse_beta := betas.map pinv
  let s := psum inverse_beta
  inverse_beta.map (fun x => pdiv x s)

/-- Python-level error outcomes relevant to the spec's error-handling
claims. -/
inductive PyError where
  | divisionByZero
deriving DecidableEq

/-- Sector-weight computation with its error behaviour made explicit: the
numpy expressions on utils.py lines 49-50 are elementwise float operations
that never raise, so the computation always returns `Except.ok` with the
(possibly inf/NaN-valued) weight column; there is no code path producing an
exception. -/
def sector_wieghts_step (betas : List ℚ) : Except PyError (List PandasVal) :=
  Except.ok (sector_wieghts_vals betas)

/-- One row of the table handed to `allocate_funds` (utils.py line 65):
`idx` is the pandas index label of the row in `df_orig`, `price` the
`regularMarketPrice` column, `wieght` the `final_wieght` column and `shares`
the `shares` column (absent before the call; the code overwrites it, so we
carry it as a field that `allocate_funds` assigns). -/
structure Row where
  idx : Nat
  price : ℚ
  wieght : ℚ
  shares : ℤ
deriving DecidableEq

/-- Stable descending insertion by a key, used to model
`sort_values(..., ascending=False)`: on rows with distinct keys it produces
the unique descending order that pandas produces. -/
def insertByDesc {α : Type} {β : Type} [LinearOrder β] (key : α → β) (x : α) :
    List α → List α
  | [] => [x]
  | y :: rest =>
      if key x ≤ key y then y :: insertByDesc key x rest else x :: y :: rest

/-- Sort a list in descending key order (model of `sort_values` with
`ascending=False`). -/
def sortByDesc {α : Type} {β : Type} [LinearOrder β] (key : α → β)
    (l : List α) : List α :=
  l.foldr (insertByDesc key) []

/-- Phase-1 floor allocation for one row (utils.py line 102):
`np.floor((total_amount * final_wieght) / price)` written into the `shares`
column. -/
def phase1 (total_amount : ℚ) (r : Row) : Row :=
  ⟨r.idx, r.price, r.wieght, ⌊total_amount * r.wieght / r.price⌋⟩

/-- Money spent by a share column: `(df['shares'] * df[price_col]).sum()`
(utils.py line 106). -/
def spent (l : List Row) : ℚ := (l.map (fun r => (r.shares : ℚ) * r.price)).sum

/-- Sum of the price column of a list of rows. -/
def priceSum (l : List Row) : ℚ := (l.map Row.price).sum

/-- The affordability filter of the redistribution loop (utils.py line 115):
`df[df[price_col] < residue]`, strict less-than. -/
def affordable (prio : List Row) (residue : ℚ) : List Row :=
  prio.filter (fun r => r.price < residue)

/-- Pair every row with the running cumulative price starting from `acc`
(model of `cumsum` on utils.py line 118). -/
def withCum (acc : ℚ) : List Row → List (Row × ℚ)
  | [] => []
  | r :: rest => (r, acc + r.price) :: withCum (acc + r.price) rest

/-- The prefix-retention filter of the redistribution loop (utils.py lines
118-119): of the affordability-filtered rows, keep those whose cumulative
price is strictly below the residue. -/
def retainedOf (l : List Row) (residue : ℚ) : List Row :=
  ((withCum 0 l).filter (fun p => p.2 < residue)).map Prod.fst

/-- Increment the `shares` column of the rows whose index label lies in
`ns` (utils.py line 121:
`df_orig.loc[df_orig.index.isin(df_res.index), 'shares'] += 1`). -/
def bump (ns : List Nat) (s : Row) : Row :=
  if s.idx ∈ ns then ⟨s.idx, s.price, s.wieght, s.shares + 1⟩ else s

/-- The `while True` redistribution loop of utils.py lines 111-122, with an
explicit fuel argument because the Python loop genuinely diverges on inputs
with non-positive prices.  `prio` is the weight-sorted working frame `df`
(its prices drive both filters; its own `shares` column is stale and never
read), `state` is `df_orig` whose `shares` column accumulates the
increments.  Returns the final `df_orig` rows, the final residue and the
number of share-buying iterations executed. -/
def allocLoop (prio : List Row) : Nat → List Row → ℚ → List Row × ℚ × Nat
  | 0, state, residue => (state, residue, 0)
  | fuel + 1, state, residue =>
      let df_res := affordable prio residue
      if df_res.isEmpty then (state, residue, 0)
      else
        let ret := retainedOf df_res residue
        let state' := state.map (bump (ret.map Row.idx))
        let out := allocLoop prio fuel state' (residue - priceSum ret)
        (out.1, out.2.1, out.2.2 + 1)

/-- Smallest price among `m` and the prices of the rows of the list. -/
def minPriceAux (m : ℚ) : List Row → ℚ
  | [] => m
  | r :: rest => minPriceAux (min m r.price) rest

/-- Fuel sufficient for the redistribution loop whenever all prices are
positive: each buying iteration lowers the residue by at least the minimum
price, so `ceil(residue / min price) + 1` iterations always reach the empty
affordability filter. -/
def loopFuel (prio : List Row) (residue : ℚ) : Nat :=
  match prio with
  | [] => 0
  | r :: rest =>
      let pmin := minPriceAux r.price rest
      if 0 < pmin ∧ 0 < residue then (⌈residue / pmin⌉).toNat + 1 else 1

/-- Shallow embedding of `allocate_funds` (utils.py lines 65-124): sort a
working copy by `final_wieght` descending, floor-allocate shares into
`df_orig` and the working copy, compute the residue, then run the
redistribution loop.  Returns the `df_orig` rows with their final `shares`
column (the returned frame of line 124 carries exactly these share counts),
together with the final residue and the number of loop iterations. -/
def allocate_funds (df_orig : List Row) (total_amount : ℚ) :
    List Row × ℚ × Nat :=
  let df := sortByDesc Row.wieght df_orig
  let dfShares := df.map (phase1 total_amount)
  let state := df_orig.map (phase1 total_amount)
  let residue := total_amount - spent dfShares
  allocLoop df (loopFuel df residue) state residue

/-- One security row of the stock table (`stock_port_df`), with the fields
the optimization pipeline reads. -/
structure SecurityRec where
  ticker : Nat
  sector : String
  regularMarketPrice : ℚ
  beta : ℚ
  profitMargins : ℚ
deriving DecidableEq

/-- Model of `nlargest(limit, 'profitMargins')` (utils.py line 151): the
first `limit` rows in descending profit-margin order, ties keeping the
earlier row first (pandas `keep='first'`). -/
def nlargestByMargins (limit : Nat) (l : List SecurityRec) : List SecurityRec :=
  (sortByDesc SecurityRec.profitMargins l).take limit

/-- Shallow embedding of `extract_stock_wieght` (utils.py lines 127-154):
keep the top `limit` rows by profit margin, drop those with margin ≤ 0, and
attach `stock_wieght = profitMargins / profitMargins.sum()` over the kept
rows. -/
def extract_stock_wieght (sector_group : List SecurityRec) (limit : Nat) :
    List (SecurityRec × ℚ) :=
  let sel := (nlargestByMargins limit sector_group).filter
      (fun s => 0 < s.profitMargins)
  let total := (sel.map SecurityRec.profitMargins).sum
  sel.map (fun s => (s, s.profitMargins / total))

/-- Distinct values of a column in first-occurrence order
(`Series.unique`). -/
def uniqueAux (seen : List String) : List String → List String
  | [] => []
  | s :: rest =>
      if s ∈ seen then uniqueAux seen rest
      else s :: uniqueAux (s :: seen) rest

/-- Distinct sector names in first-occurrence order. -/
def uniqueSectors (l : List String) : List String := uniqueAux [] l

/-- Sector-level slice of `extract_metrics` (utils.py lines 284-290) with
the `avg_beta` aggregate, the only aggregate the optimization pipeline
reads: mean of the `beta` column per sector. -/
def extract_metrics (df : List SecurityRec) : List (String × ℚ) :=
  (uniqueSectors (df.map SecurityRec.sector)).map
    (fun sec =>
      let g := df.filter (fun r => r.sector == sec)
      (sec, (g.map SecurityRec.beta).sum / (g.length : ℚ)))

/-- Sector-weight column of utils.py lines 49-50 on the generic path where
every average beta is a non-zero finite value and the inverse-beta sum is
non-zero, so that pandas float arithmetic computes ordinary quotients
(`sector_wieghts_vals` is the same computation on the full pandas value
domain). -/
def sector_wieghts_q (metrics : List (String × ℚ)) : List (String × ℚ) :=
  let invSum := (metrics.map (fun m => m.2⁻¹)).sum
  metrics.map (fun m => (m.1, m.2⁻¹ / invSum))

/-- Shallow embedding of `portfolio_optimization` (utils.py lines 17-62):
derive sector weights from inverse average betas, per sector apply
`extract_stock_wieght`, inner-join the sector weight on the sector key,
multiply into the final weight, allocate funds and sort the allocation by
share count descending. -/
def portfolio_optimization (metrics_df_global : List (String × ℚ))
    (stock_port_df : List SecurityRec) (total_amount : ℚ) (limit : Nat) :
    List Row :=
  let sw := sector_wieghts_q metrics_df_global
  let grouped := (uniqueSectors (stock_port_df.map SecurityRec.sector)).flatMap
      (fun sec =>
        extract_stock_wieght (stock_port_df.filter (fun r => r.sector == sec))
          limit)
  let merged := grouped.filterMap (fun p =>
      (sw.lookup p.1.sector).map (fun w =>
        (⟨p.1.ticker, p.1.regularMarketPrice, p.2 * w, 0⟩ : Row)))
  sortByDesc Row.shares (allocate_funds merged total_amount).1

/-- Shallow embedding of `MainTool.main` (main.py lines 12-63).  The
network fetch `get_sp_500_info()` is an external collaborator, passed in as
the `sp500_fetch` argument; line 39 rebinds the `stock_data_df` parameter
to that fetch before any computation reads it, which the `let` below
mirrors. -/
def MainTool.main (stock_data_df : List SecurityRec)
    (sp500_fetch : List SecurityRec) (portfolio_amount : ℚ)
    (portfolio_sector_size : Nat) : List Row :=
  let stock_data_df := sp500_fetch
  let metrics_df_global := extract_metrics stock_data_df
  portfolio_optimization metrics_df_global stock_data_df portfolio_amount
    portfolio_sector_size

/-- Caller-visible state of the `metrics_df_global` table: its sector/beta
rows plus the `sector_wieghts` column, which is absent (`none`) until some
call writes it. -/
structure MetricsDF where
  sectors : List (String × ℚ)
  sector_wieghts_col : Option (List PandasVal)
deriving DecidableEq

/-- Caller-visible effect of `portfolio_optimization` on its
`metrics_df_global` argument: utils.py line 50 assigns the
`sector_wieghts` column onto the caller's table in place, so after the call
the caller's table carries that column. -/
def portfolio_optimization_metricsAfter (m : MetricsDF) : MetricsDF :=
  ⟨m.sectors, some (sector_wieghts_vals (m.sectors.map Prod.snd))⟩

/-- Caller-visible `shares` column of the `df_orig` argument after a call
to `allocate_funds`: utils.py lines 102 and 121 assign and increment the
column on the caller's table in place (`none` models the column's absence
before the call). -/
def allocate_funds_shares_col (df_orig : List Row) (total_amount : ℚ) :
    Option (List ℤ) :=
  some ((allocate_funds df_orig total_amount).1.map Row.shares)

/-- The columns of a row other than `shares`: index label, price, weight. -/
def rowKey (r : Row) : Nat × ℚ × ℚ := (r.idx, r.price, r.wieght)

/-- Index label and price of a row. -/
def rowIP (r : Row) : Nat × ℚ := (r.idx, r.price)

/-- Total price of the (index, price) pairs whose index lies in `ns`. -/
def sumPricesIdxIn (ns : List Nat) (l : List (Nat × ℚ)) : ℚ :=
  ((l.filter (fun ip => ip.1 ∈ ns)).map Prod.snd).sum

/-! ## General lemmas about the embedded operations -/

lemma sum_map_div (l : List ℚ) (T : ℚ) :
    (l.map (fun x => x / T)).sum = l.sum / T := by
  induction l with
  | nil => simp
  | cons a rest ih => simp [ih, add_div]

lemma insertByDesc_perm {α β : Type} [LinearOrder β] (key : α → β) (x : α)
    (l : List α) : List.Perm (insertByDesc key x l) (x :: l) := by
  induction l with
  | nil => rfl
  | cons y rest ih =>
      unfold insertByDesc
      split
      · exact (ih.cons y).trans (List.Perm.swap x y rest)
      · rfl

lemma sortByDesc_perm {α β : Type} [LinearOrder β] (key : α → β)
    (l : List α) : List.Perm (sortByDesc key l) l := by
  induction l with
  | nil => rfl
  | cons a rest ih =>
      exact (insertByDesc_perm key a (sortByDesc key rest)).trans (ih.cons a)

lemma withCum_map_fst (l : List Row) : ∀ acc, (withCum acc l).map Prod.fst = l := by
  induction l with
  | nil => intro acc; rfl
  | cons r rest ih => intro acc; simp [withCum, ih]

lemma retainedOf_sublist (l : List Row) (residue : ℚ) :
    List.Sublist (retainedOf l residue) l := by
  have h := List.Sublist.map Prod.fst
      (List.filter_sublist (l := withCum 0 l) (p := fun p => decide (p.2 < residue)))
  rwa [withCum_map_fst] at h

lemma mem_affordable {prio : List Row} {residue : ℚ} {r : Row}
    (h : r ∈ affordable prio residue) : r ∈ prio ∧ r.price < residue := by
  unfold affordable at h
  have h2 := List.mem_filter.1 h
  exact ⟨h2.1, of_decide_eq_true h2.2⟩

lemma rowKey_bump (ns : List Nat) (s : Row) : rowKey (bump ns s) = rowKey s := by
  unfold bump rowKey
  split <;> rfl

lemma map_rowKey_allocLoop (prio : List Row) :
    ∀ (fuel : Nat) (state : List Row) (residue : ℚ),
      ((allocLoop prio fuel state residue).1).map rowKey = state.map rowKey := by
  intro fuel
  induction fuel with
  | zero => intro state residue; rfl
  | succ n ih =>
      intro state residue
      simp only [allocLoop]
      split
      · rfl
      · rw [ih]
        rw [List.map_map]
        exact List.map_congr_left (fun a _ => rowKey_bump _ a)

lemma map_rowKey_phase1 (b : ℚ) (l : List Row) :
    (l.map (phase1 b)).map rowKey = l.map rowKey := by
  rw [List.map_map]
  exact List.map_congr_left (fun a _ => rfl)

lemma allocate_funds_map_rowKey (df_orig : List Row) (B : ℚ) :
    ((allocate_funds df_orig B).1).map rowKey = df_orig.map rowKey := by
  simp only [allocate_funds]
  rw [map_rowKey_allocLoop, map_rowKey_phase1]

lemma psum_map_fin (l : List ℚ) :
    psum (l.map PandasVal.fin) = PandasVal.fin l.sum := by
  induction l with
  | nil => rfl
  | cons a rest ih =>
      show padd (PandasVal.fin a) (psum (rest.map PandasVal.fin))
        = PandasVal.fin ((a :: rest).sum)
      rw [ih, List.sum_cons]
      rfl

lemma pinv_shape (b : ℚ) : pinv b = .pinf ∨ ∃ q, pinv b = .fin q := by
  unfold pinv
  split
  · exact Or.inl rfl
  · exact Or.inr ⟨_, rfl⟩

lemma psum_pinv_shape (l : List ℚ) :
    psum (l.map pinv) = .pinf ∨ ∃ q, psum (l.map pinv) = .fin q := by
  induction l with
  | nil => exact Or.inr ⟨0, rfl⟩
  | cons b rest ih =>
      have hstep : psum ((b :: rest).map pinv)
          = padd (pinv b) (psum (rest.map pinv)) := rfl
      rcases pinv_shape b with h | ⟨q, h⟩ <;> rcases ih with h2 | ⟨q2, h2⟩
      · exact Or.inl (by rw [hstep, h, h2]; rfl)
      · exact Or.inl (by rw [hstep, h, h2]; rfl)
      · exact Or.inl (by rw [hstep, h, h2]; rfl)
      · exact Or.inr ⟨q + q2, by rw [hstep, h, h2]; rfl⟩

lemma psum_pinv_of_zero_mem (betas : List ℚ) (h : (0:ℚ) ∈ betas) :
    psum (betas.map pinv) = .pinf := by
  induction betas with
  | nil => cases h
  | cons b rest ih =>
      have hstep : psum ((b :: rest).map pinv)
          = padd (pinv b) (psum (rest.map pinv)) := rfl
      rw [hstep]
      rcases List.mem_cons.1 h with h0 | h0
      · have hb : pinv b = .pinf := by rw [← h0]; rfl
        rw [hb]
        rcases psum_pinv_shape rest with h2 | ⟨q, h2⟩ <;> rw [h2] <;> rfl
      · rw [ih h0]
        rcases pinv_shape b with h2 | ⟨q, h2⟩ <;> rw [h2] <;> rfl

/-! ## Claim theorems -/

/-- C10: the portfolio returned by `MainTool.main` does not depend on its
`stock_data_df` argument — main.py line 39 unconditionally rebinds the
parameter to the fresh `get_sp_500_info()` fetch before any computation
reads it, so two calls with different `stock_data_df` tables but the same
fetch, budget and selection limit return the same portfolio. -/
theorem main_result_independent_of_stock_data_df
    (df1 df2 sp500_fetch : List SecurityRec) (amount : ℚ) (size : Nat) :
    MainTool.main df1 sp500_fetch amount size
      = MainTool.main df2 sp500_fetch amount size := rfl

/-- C9 counterexample: the pipeline stages do mutate caller-visible
structures.  `portfolio_optimization` writes the `sector_wieghts` column
onto the caller's metrics table (utils.py line 50), and `allocate_funds`
writes the `shares` column onto the caller's security table (utils.py
lines 102 and 121), so after the calls the caller's tables differ from what
was passed in. -/
theorem stages_mutate_caller_tables :
    portfolio_optimization_metricsAfter ⟨[("Tech", 2)], none⟩
        ≠ (⟨[("Tech", 2)], none⟩ : MetricsDF)
    ∧ allocate_funds_shares_col [⟨0, 10, 1, 0⟩] 20 ≠ none :=
  ⟨by decide, by decide⟩

/-- C9 (amended): the stages mutate their caller-visible input tables only
by writing derived columns onto them — `portfolio_optimization` adds the
`sector_wieghts` column to the metrics table and `allocate_funds`
assigns the `shares` column on the security table; the pre-existing
columns (sector rows, and index/price/weight of every security row) are
unchanged, and outputs are recomputed from scratch on each call. -/
theorem stages_preserve_input_rows (m : MetricsDF) (df_orig : List Row)
    (B : ℚ) :
    (portfolio_optimization_metricsAfter m).sectors = m.sectors
    ∧ ((allocate_funds df_orig B).1).map rowKey = df_orig.map rowKey :=
  ⟨rfl, allocate_funds_map_rowKey df_orig B⟩

/-- C3 counterexample: with a sector whose average beta is exactly 0
(betas `[0, 2]`), the sector-weight computation does not raise a
DivisionByZero error; numpy division yields an infinite inverse and the
computation proceeds, producing the junk weight column
`[NaN, 0]` as an ordinary successful result. -/
theorem zero_avg_beta_proceeds_concrete :
    sector_wieghts_step [0, 2]
      = Except.ok [PandasVal.nan, PandasVal.fin 0] := by
  show Except.ok (sector_wieghts_vals [0, 2]) = _
  rw [show sector_wieghts_vals [0, 2] = [PandasVal.nan, PandasVal.fin 0]
      from by decide]

/-- C3 (amended): a sector with average beta exactly 0 does not make the
sector-weight computation fail — pandas elementwise division never raises.
Instead the zero-beta sector's inverse is `+inf`, making the inverse sum
`+inf`, so the zero-beta sector's weight evaluates to NaN (`inf/inf`) and
every other sector's weight to 0 (finite divided by `inf`), and the
pipeline proceeds with these values. -/
theorem zero_avg_beta_no_exception (betas : List ℚ) (h : (0:ℚ) ∈ betas) :
    sector_wieghts_step betas
      = Except.ok (betas.map
          (fun b => if b = 0 then PandasVal.nan else PandasVal.fin 0)) := by
  have hvals : sector_wieghts_vals betas
      = betas.map (fun b => if b = 0 then PandasVal.nan else PandasVal.fin 0) := by
    simp only [sector_wieghts_vals]
    rw [psum_pinv_of_zero_mem betas h, List.map_map]
    refine List.map_congr_left (fun b _ => ?_)
    by_cases hb : b = 0
    · simp [pinv, hb]
      rfl
    · simp [pinv, hb]
      rfl
  show Except.ok (sector_wieghts_vals betas) = _
  rw [hvals]

/-- C3 amended-claim witness at betas `[0, 2]`. -/
theorem zero_avg_beta_no_exception_witness :
    sector_wieghts_step [0, 2]
      = Except.ok ([0, 2].map
          (fun b => if b = 0 then PandasVal.nan else PandasVal.fin 0)) :=
  zero_avg_beta_no_exception [0, 2] (by decide)

/-- C5 counterexample: the sector set with average betas `[1, -1]` has
every beta defined and non-zero, yet the sector weights do not sum to 1:
the inverse-beta sum is exactly 0, elementwise division by it yields
`[+inf, -inf]`, and their sum is NaN, not 1 (under any tolerance). -/
theorem sector_wieghts_sum_not_one_concrete :
    ((1 : ℚ) ≠ 0 ∧ (-1 : ℚ) ≠ 0)
    ∧ psum (sector_wieghts_vals [1, -1]) = PandasVal.nan
    ∧ PandasVal.nan ≠ PandasVal.fin 1 := by decide

/-- C5 (amended): for every sector set in which every average beta is
non-zero and the sum of inverse betas is non-zero (in particular whenever
all betas are positive), the computed sector weights sum to exactly 1 in
exact arithmetic. -/
theorem sector_wieghts_sum_one (betas : List ℚ)
    (h1 : ∀ b ∈ betas, b ≠ 0)
    (h2 : (betas.map (fun b => b⁻¹)).sum ≠ 0) :
    psum (sector_wieghts_vals betas) = PandasVal.fin 1 := by
  have hmap : betas.map pinv = (betas.map (fun b => b⁻¹)).map PandasVal.fin := by
    rw [List.map_map]
    exact List.map_congr_left (fun b hb => by simp [pinv, h1 b hb])
  simp only [sector_wieghts_vals]
  rw [hmap, psum_map_fin]
  have hw : ((betas.map (fun b => b⁻¹)).map PandasVal.fin).map
        (fun x => pdiv x (PandasVal.fin (betas.map (fun b => b⁻¹)).sum))
      = ((betas.map (fun b => b⁻¹)).map
          (fun x => x / (betas.map (fun b => b⁻¹)).sum)).map PandasVal.fin := by
    simp only [List.map_map]
    refine List.map_congr_left (fun b _ => ?_)
    simp only [Function.comp]
    show pdiv (PandasVal.fin b⁻¹) (PandasVal.fin (betas.map (fun b => b⁻¹)).sum) = _
    simp [pdiv, h2]
  rw [hw, psum_map_fin, sum_map_div, div_self h2]

/-- C5 amended-claim witness at betas `[1, 2]`. -/
theorem sector_wieghts_sum_one_witness :
    psum (sector_wieghts_vals [1, 2]) = PandasVal.fin 1 :=
  sector_wieghts_sum_one [1, 2] (by decide) (by decide)

/-- C6: per sector, stock selection keeps only securities with positive
profit margin among the top-`limit` by margin (a non-positive margin is
discarded even inside the top `limit`), assigns each kept security the
weight `margin / sum of kept margins`; if at least one top-`limit` security
has positive margin the weights sum to exactly 1, and if none does the
sector contributes zero rows. -/
theorem extract_stock_wieght_spec (sector_group : List SecurityRec)
    (limit : Nat) :
    (∀ p ∈ extract_stock_wieght sector_group limit, 0 < p.1.profitMargins)
    ∧ ((∃ s ∈ nlargestByMargins limit sector_group, 0 < s.profitMargins) →
        ((extract_stock_wieght sector_group limit).map Prod.snd).sum = 1)
    ∧ ((∀ s ∈ nlargestByMargins limit sector_group, ¬ 0 < s.profitMargins) →
        extract_stock_wieght sector_group limit = []) := by
  refine ⟨?_, ?_, ?_⟩
  · intro p hp
    simp only [extract_stock_wieght, List.mem_map, List.mem_filter,
      decide_eq_true_eq] at hp
    obtain ⟨s, ⟨hs1, hs2⟩, rfl⟩ := hp
    exact hs2
  · rintro ⟨s, hs, hpos⟩
    have hmem : s ∈ (nlargestByMargins limit sector_group).filter
        (fun s => decide (0 < s.profitMargins)) :=
      List.mem_filter.2 ⟨hs, by simpa using hpos⟩
    have hposall : ∀ x ∈ ((nlargestByMargins limit sector_group).filter
        (fun s => decide (0 < s.profitMargins))).map SecurityRec.profitMargins,
        0 < x := by
      intro x hx
      simp only [List.mem_map, List.mem_filter, decide_eq_true_eq] at hx
      obtain ⟨s2, ⟨hs21, hs22⟩, rfl⟩ := hx
      exact hs22
    have hT : 0 < (((nlargestByMargins limit sector_group).filter
        (fun s => decide (0 < s.profitMargins))).map
          SecurityRec.profitMargins).sum :=
      List.sum_pos _ hposall (by
        simp only [ne_eq, List.map_eq_nil_iff]
        exact List.ne_nil_of_mem hmem)
    simp only [extract_stock_wieght]
    rw [List.map_map]
    have hcomp : (((nlargestByMargins limit sector_group).filter
          (fun s => decide (0 < s.profitMargins))).map
            (Prod.snd ∘ (fun s => (s, s.profitMargins /
              (((nlargestByMargins limit sector_group).filter
                (fun s => decide (0 < s.profitMargins))).map
                  SecurityRec.profitMargins).sum))))
        = (((nlargestByMargins limit sector_group).filter
            (fun s => decide (0 < s.profitMargins))).map
              SecurityRec.profitMargins).map
            (fun x => x / (((nlargestByMargins limit sector_group).filter
              (fun s => decide (0 < s.profitMargins))).map
                SecurityRec.profitMargins).sum) := by
      rw [List.map_map]
      exact List.map_congr_left (fun a _ => rfl)
    rw [hcomp, sum_map_div, div_self (ne_of_gt hT)]
  · intro h
    simp only [extract_stock_wieght]
    rw [List.filter_eq_nil_iff.2 (fun a ha => by simpa using h a ha)]
    rfl

/-- C6 witness: one security with margin 1/2 and limit 1. -/
theorem extract_stock_wieght_spec_witness :
    ((extract_stock_wieght [⟨0, "T", 10, 1, 1/2⟩] 1).map Prod.snd).sum = 1 :=
  (extract_stock_wieght_spec [⟨0, "T", 10, 1, 1/2⟩] 1).2.1
    ⟨⟨0, "T", 10, 1, 1/2⟩, by decide, by decide⟩

lemma priceSum_cons (x : Row) (t : List Row) :
    priceSum (x :: t) = x.price + priceSum t := by
  simp [priceSum]

lemma priceSum_nonneg (l : List Row) (h : ∀ r ∈ l, 0 ≤ r.price) :
    0 ≤ priceSum l := by
  unfold priceSum
  refine List.sum_nonneg ?_
  intro x hx
  obtain ⟨r, hr, rfl⟩ := List.mem_map.1 hx
  exact h r hr

lemma spent_cons (x : Row) (t : List Row) :
    spent (x :: t) = (x.shares : ℚ) * x.price + spent t := by
  simp [spent]

lemma spent_perm {l l' : List Row} (h : List.Perm l l') : spent l = spent l' := by
  unfold spent
  exact (h.map _).sum_eq

lemma affordable_of_nonpos (prio : List Row) (residue : ℚ)
    (hpos : ∀ r ∈ prio, 0 < r.price) (h : residue ≤ 0) :
    affordable prio residue = [] := by
  unfold affordable
  refine List.filter_eq_nil_iff.2 ?_
  intro r hr
  simp only [decide_eq_true_eq]
  intro hlt
  exact absurd (lt_trans (hpos r hr) hlt) (not_lt.2 h)

lemma allocLoop_of_affordable_empty (prio : List Row) (fuel : Nat)
    (state : List Row) (residue : ℚ) (h : affordable prio residue = []) :
    allocLoop prio fuel state residue = (state, residue, 0) := by
  cases fuel with
  | zero => rfl
  | succ n => simp [allocLoop, h]

lemma minPriceAux_le (l : List Row) : ∀ m : ℚ,
    minPriceAux m l ≤ m ∧ ∀ r ∈ l, minPriceAux m l ≤ r.price := by
  induction l with
  | nil => intro m; exact ⟨le_refl m, fun r hr => absurd hr (List.not_mem_nil r)⟩
  | cons x rest ih =>
      intro m
      have h := ih (min m x.price)
      refine ⟨le_trans h.1 (min_le_left _ _), ?_⟩
      intro r hr
      rcases List.mem_cons.1 hr with rfl | hr2
      · exact le_trans h.1 (min_le_right _ _)
      · exact h.2 r hr2

lemma minPriceAux_pos (l : List Row) : ∀ m : ℚ, 0 < m →
    (∀ r ∈ l, 0 < r.price) → 0 < minPriceAux m l := by
  induction l with
  | nil => intro m hm _; exact hm
  | cons x rest ih =>
      intro m hm h
      exact ih (min m x.price) (lt_min hm (h x (List.mem_cons_self x rest)))
        (fun r hr => h r (List.mem_cons_of_mem x hr))

lemma withCum_filter_of_le (l : List Row) (r : ℚ)
    (hpos : ∀ x ∈ l, 0 < x.price) : ∀ acc : ℚ, r ≤ acc →
    (withCum acc l).filter (fun p => decide (p.2 < r)) = [] := by
  induction l with
  | nil => intro acc _; rfl
  | cons x rest ih =>
      intro acc hacc
      have hx : 0 < x.price := hpos x (List.mem_cons_self x rest)
      have hacc2 : r ≤ acc + x.price :=
        le_trans hacc (le_add_of_nonneg_right (le_of_lt hx))
      show ((x, acc + x.price) :: withCum (acc + x.price) rest).filter
          (fun p => decide (p.2 < r)) = []
      rw [List.filter_cons_of_neg
          (by simp only [decide_eq_true_eq]; exact not_lt.2 hacc2)]
      exact ih (fun y hy => hpos y (List.mem_cons_of_mem x hy))
        (acc + x.price) hacc2

lemma withCum_retained_sum (l : List Row) (r : ℚ)
    (hpos : ∀ x ∈ l, 0 < x.price) : ∀ acc : ℚ,
    acc + priceSum (((withCum acc l).filter
        (fun p => decide (p.2 < r))).map Prod.fst) < r
    ∨ priceSum (((withCum acc l).filter
        (fun p => decide (p.2 < r))).map Prod.fst) = 0 := by
  induction l with
  | nil => intro acc; right; rfl
  | cons x rest ih =>
      intro acc
      have hx : 0 < x.price := hpos x (List.mem_cons_self x rest)
      have hrest : ∀ y ∈ rest, 0 < y.price :=
        fun y hy => hpos y (List.mem_cons_of_mem x hy)
      show acc + priceSum ((((x, acc + x.price) ::
          withCum (acc + x.price) rest).filter
          (fun p => decide (p.2 < r))).map Prod.fst) < r
        ∨ priceSum ((((x, acc + x.price) ::
          withCum (acc + x.price) rest).filter
          (fun p => decide (p.2 < r))).map Prod.fst) = 0
      by_cases hlt : acc + x.price < r
      · rw [List.filter_cons_of_pos
            (by simp only [decide_eq_true_eq]; exact hlt), List.map_cons,
          priceSum_cons]
        rcases ih hrest (acc + x.price) with h | h
        · left
          linarith
        · left
          rw [h]
          linarith
      · rw [List.filter_cons_of_neg
            (by simp only [decide_eq_true_eq]; exact hlt),
          withCum_filter_of_le rest r hrest (acc + x.price) (not_lt.1 hlt)]
        right
        rfl

lemma retained_priceSum_cases (l : List Row) (r : ℚ)
    (hpos : ∀ x ∈ l, 0 < x.price) :
    priceSum (retainedOf l r) < r ∨ priceSum (retainedOf l r) = 0 := by
  have h := withCum_retained_sum l r hpos 0
  rcases h with h | h
  · left
    rw [zero_add] at h
    exact h
  · right
    exact h

lemma withCum_cons (acc : ℚ) (x : Row) (l : List Row) :
    withCum acc (x :: l) = (x, acc + x.price) :: withCum (acc + x.price) l := rfl

lemma retainedOf_affordable_ne_nil (prio : List Row) (r : ℚ)
    (hne : affordable prio r ≠ []) :
    retainedOf (affordable prio r) r ≠ [] := by
  obtain ⟨h, t, e⟩ := List.exists_cons_of_ne_nil hne
  have hh : h ∈ affordable prio r := by
    rw [e]; exact List.mem_cons_self h t
  have hlt : (0:ℚ) + h.price < r := by
    rw [zero_add]; exact (mem_affordable hh).2
  unfold retainedOf
  rw [e, withCum_cons,
    List.filter_cons_of_pos (by simp only [decide_eq_true_eq]; exact hlt),
    List.map_cons]
  exact List.cons_ne_nil _ _

lemma sumPricesIdxIn_cons (ns : List Nat) (ip : Nat × ℚ)
    (t : List (Nat × ℚ)) :
    sumPricesIdxIn ns (ip :: t)
      = (if ip.1 ∈ ns then ip.2 else 0) + sumPricesIdxIn ns t := by
  unfold sumPricesIdxIn
  by_cases h : ip.1 ∈ ns
  · rw [List.filter_cons_of_pos (by simpa using h), List.map_cons,
      List.sum_cons, if_pos h]
  · rw [List.filter_cons_of_neg (by simpa using h), if_neg h, zero_add]

lemma spent_map_bump (ns : List Nat) (state : List Row) :
    spent (state.map (bump ns))
      = spent state + sumPricesIdxIn ns (state.map rowIP) := by
  induction state with
  | nil => simp [spent, sumPricesIdxIn]
  | cons s t ih =>
      simp only [List.map_cons, spent_cons, sumPricesIdxIn_cons, ih]
      by_cases h : s.idx ∈ ns
      · have hb : bump ns s = ⟨s.idx, s.price, s.wieght, s.shares + 1⟩ :=
          if_pos h
        have hip : (if (rowIP s).1 ∈ ns then (rowIP s).2 else 0) = s.price :=
          if_pos h
        rw [hb, hip]
        push_cast
        ring
      · have hb : bump ns s = s := if_neg h
        have hip : (if (rowIP s).1 ∈ ns then (rowIP s).2 else 0) = 0 :=
          if_neg h
        rw [hb, hip]
        ring

lemma sumPricesIdxIn_sublist {l sub : List (Nat × ℚ)}
    (h : List.Sublist sub l) (hnd : (l.map Prod.fst).Nodup) :
    sumPricesIdxIn (sub.map Prod.fst) l = (sub.map Prod.snd).sum := by
  induction h with
  | slnil => rfl
  | @cons l₁ l₂ a h ih =>
      rw [List.map_cons] at hnd
      have hcons := List.nodup_cons.1 hnd
      have hnotin : a.1 ∉ l₁.map Prod.fst :=
        fun hmem => hcons.1 ((h.map Prod.fst).subset hmem)
      rw [sumPricesIdxIn_cons, if_neg hnotin, zero_add]
      exact ih hcons.2
  | @cons₂ l₁ l₂ a h ih =>
      rw [List.map_cons] at hnd
      have hcons := List.nodup_cons.1 hnd
      simp only [List.map_cons, List.sum_cons]
      rw [sumPricesIdxIn_cons,
        if_pos (List.mem_cons_self a.1 (l₁.map Prod.fst))]
      have hfc : l₂.filter (fun ip => decide (ip.1 ∈ a.1 :: l₁.map Prod.fst))
          = l₂.filter (fun ip => decide (ip.1 ∈ l₁.map Prod.fst)) := by
        refine List.filter_congr ?_
        intro ip hip
        have hne : ip.1 ≠ a.1 := by
          intro he
          exact hcons.1 (by rw [← he]; exact List.mem_map_of_mem Prod.fst hip)
        rw [decide_eq_decide]
        simp [List.mem_cons, hne]
      have h2 : sumPricesIdxIn (a.1 :: l₁.map Prod.fst) l₂
          = sumPricesIdxIn (l₁.map Prod.fst) l₂ := by
        unfold sumPricesIdxIn
        rw [hfc]
      rw [h2, ih hcons.2]

lemma sumPricesIdxIn_perm (ns : List Nat) {l l' : List (Nat × ℚ)}
    (h : List.Perm l l') : sumPricesIdxIn ns l = sumPricesIdxIn ns l' := by
  unfold sumPricesIdxIn
  exact ((h.filter _).map _).sum_eq

lemma map_rowIP_bump (ns : List Nat) (l : List Row) :
    (l.map (bump ns)).map rowIP = l.map rowIP := by
  rw [List.map_map]
  refine List.map_congr_left (fun s _ => ?_)
  show rowIP (bump ns s) = rowIP s
  unfold bump rowIP
  split <;> rfl

lemma map_rowIP_phase1 (b : ℚ) (l : List Row) :
    (l.map (phase1 b)).map rowIP = l.map rowIP := by
  rw [List.map_map]
  exact List.map_congr_left (fun s _ => rfl)

lemma map_fst_map_rowIP (l : List Row) :
    (l.map rowIP).map Prod.fst = l.map Row.idx := by
  rw [List.map_map]
  exact List.map_congr_left (fun s _ => rfl)

lemma map_snd_map_rowIP (l : List Row) :
    (l.map rowIP).map Prod.snd = l.map Row.price := by
  rw [List.map_map]
  exact List.map_congr_left (fun s _ => rfl)

lemma retainedOf_affordable_sublist (prio : List Row) (residue : ℚ) :
    List.Sublist (retainedOf (affordable prio residue) residue) prio := by
  refine (retainedOf_sublist _ _).trans ?_
  exact List.filter_sublist prio

lemma spent_bump_eq (prio state ret : List Row)
    (hsub : List.Sublist ret prio)
    (hnd : (prio.map Row.idx).Nodup)
    (hperm : List.Perm (state.map rowIP) (prio.map rowIP)) :
    spent (state.map (bump (ret.map Row.idx)))
      = spent state + priceSum ret := by
  rw [spent_map_bump, sumPricesIdxIn_perm _ hperm]
  have h1 : ret.map Row.idx = (ret.map rowIP).map Prod.fst :=
    (map_fst_map_rowIP ret).symm
  rw [h1, sumPricesIdxIn_sublist (hsub.map rowIP)
      (by rw [map_fst_map_rowIP]; exact hnd), map_snd_map_rowIP]
  rfl

lemma allocLoop_succ_of_ne (prio state : List Row) (residue : ℚ) (n : Nat)
    (hemp : ¬(affordable prio residue).isEmpty = true) :
    (allocLoop prio (n+1) state residue).1
        = (allocLoop prio n
            (state.map (bump ((retainedOf (affordable prio residue)
              residue).map Row.idx)))
            (residue - priceSum (retainedOf (affordable prio residue)
              residue))).1
    ∧ (allocLoop prio (n+1) state residue).2.1
        = (allocLoop prio n
            (state.map (bump ((retainedOf (affordable prio residue)
              residue).map Row.idx)))
            (residue - priceSum (retainedOf (affordable prio residue)
              residue))).2.1 := by
  simp only [allocLoop]
  rw [if_neg hemp]
  exact ⟨rfl, rfl⟩

lemma allocLoop_invariant (prio : List Row)
    (hpos : ∀ x ∈ prio, 0 < x.price)
    (hnd : (prio.map Row.idx).Nodup) :
    ∀ (fuel : Nat) (state : List Row) (residue : ℚ),
      List.Perm (state.map rowIP) (prio.map rowIP) → 0 ≤ residue →
      spent ((allocLoop prio fuel state residue).1)
          + (allocLoop prio fuel state residue).2.1
        = spent state + residue
      ∧ 0 ≤ (allocLoop prio fuel state residue).2.1 := by
  intro fuel
  induction fuel with
  | zero => intro state residue _ hres; exact ⟨rfl, hres⟩
  | succ n ih =>
      intro state residue hperm hres
      by_cases hemp : (affordable prio residue).isEmpty = true
      · rw [allocLoop_of_affordable_empty prio (n+1) state residue
            (List.isEmpty_iff.1 hemp)]
        exact ⟨rfl, hres⟩
      · have hposaff : ∀ x ∈ affordable prio residue, 0 < x.price :=
          fun x hx => hpos x (mem_affordable hx).1
        have hres' : 0 ≤ residue
            - priceSum (retainedOf (affordable prio residue) residue) := by
          rcases retained_priceSum_cases (affordable prio residue) residue
              hposaff with hc | hc
          · linarith
          · rw [hc, sub_zero]; exact hres
        have hperm' : List.Perm
            ((state.map (bump ((retainedOf (affordable prio residue)
              residue).map Row.idx))).map rowIP) (prio.map rowIP) := by
          rw [map_rowIP_bump]; exact hperm
        have hI := ih (state.map (bump ((retainedOf (affordable prio residue)
            residue).map Row.idx)))
          (residue - priceSum (retainedOf (affordable prio residue) residue))
          hperm' hres'
        have hsb : spent (state.map (bump ((retainedOf (affordable prio
            residue) residue).map Row.idx)))
            = spent state
              + priceSum (retainedOf (affordable prio residue) residue) :=
          spent_bump_eq prio state _
            (retainedOf_affordable_sublist prio residue) hnd hperm
        have hstep := allocLoop_succ_of_ne prio state residue n hemp
        rw [hstep.1, hstep.2]
        refine ⟨?_, hI.2⟩
        have h1 := hI.1
        rw [hsb] at h1
        linarith [h1]

lemma allocLoop_reaches_fixpoint (prio : List Row) (pmin : ℚ)
    (hpm : 0 < pmin) (hmin : ∀ r ∈ prio, pmin ≤ r.price)
    (hpos : ∀ r ∈ prio, 0 < r.price) :
    ∀ (fuel : Nat) (state : List Row) (residue : ℚ),
      (⌈residue / pmin⌉).toNat ≤ fuel →
      affordable prio ((allocLoop prio fuel state residue).2.1) = [] := by
  intro fuel
  induction fuel with
  | zero =>
      intro state residue hb
      have hk : ⌈residue / pmin⌉ ≤ 0 :=
        Int.toNat_eq_zero.1 (Nat.le_zero.1 hb)
      have hdiv : residue / pmin ≤ 0 :=
        le_trans (Int.le_ceil _) (by exact_mod_cast hk)
      have hres : residue ≤ 0 := by
        by_contra hc
        push_neg at hc
        exact absurd (div_pos hc hpm) (not_lt.2 hdiv)
      exact affordable_of_nonpos prio residue hpos hres
  | succ n ih =>
      intro state residue hb
      by_cases hemp : (affordable prio residue).isEmpty = true
      · rw [allocLoop_of_affordable_empty prio (n+1) state residue
            (List.isEmpty_iff.1 hemp)]
        exact List.isEmpty_iff.1 hemp
      · have hne : affordable prio residue ≠ [] :=
          fun h0 => hemp (by rw [h0]; rfl)
        obtain ⟨x, t, e⟩ := List.exists_cons_of_ne_nil hne
        have hx : x ∈ affordable prio residue := by
          rw [e]; exact List.mem_cons_self x t
        have hxp := mem_affordable hx
        have hrp : pmin < residue := lt_of_le_of_lt (hmin x hxp.1) hxp.2
        have hretne := retainedOf_affordable_ne_nil prio residue hne
        obtain ⟨y, ty, ey⟩ := List.exists_cons_of_ne_nil hretne
        have hsubaff := retainedOf_affordable_sublist prio residue
        have hS : pmin
            ≤ priceSum (retainedOf (affordable prio residue) residue) := by
          have hy : pmin ≤ y.price :=
            hmin y (hsubaff.subset (by
              rw [ey]; exact List.mem_cons_self y ty))
          have hty : 0 ≤ priceSum ty :=
            priceSum_nonneg ty (fun z hz => le_of_lt
              (hpos z (hsubaff.subset (by
                rw [ey]; exact List.mem_cons_of_mem y hz))))
          rw [ey, priceSum_cons]
          linarith
        have hbound : (⌈(residue - priceSum (retainedOf (affordable prio
            residue) residue)) / pmin⌉).toNat ≤ n := by
          rw [Int.toNat_le]
          have h2 : (residue - priceSum (retainedOf (affordable prio residue)
              residue)) / pmin ≤ residue / pmin - 1 := by
            have hnum : residue - priceSum (retainedOf (affordable prio
                residue) residue) ≤ residue - pmin := by linarith
            calc (residue - priceSum (retainedOf (affordable prio residue)
                  residue)) / pmin
                ≤ (residue - pmin) / pmin := by gcongr
              _ = residue / pmin - pmin / pmin := by rw [sub_div]
              _ = residue / pmin - 1 := by rw [div_self (ne_of_gt hpm)]
          have h3 : ⌈(residue - priceSum (retainedOf (affordable prio residue)
              residue)) / pmin⌉ ≤ ⌈residue / pmin - 1⌉ := Int.ceil_mono h2
          have h4 : ⌈residue / pmin - 1⌉ = ⌈residue / pmin⌉ - 1 := by
            have := Int.ceil_sub_int (residue / pmin) 1
            simpa using this
          have h5 : ⌈residue / pmin⌉ ≤ ((n + 1 : ℕ) : ℤ) := Int.toNat_le.1 hb
          rw [h4] at h3
          omega
        have hfix := ih (state.map (bump ((retainedOf (affordable prio
            residue) residue).map Row.idx)))
          (residue - priceSum (retainedOf (affordable prio residue) residue))
          hbound
        rw [(allocLoop_succ_of_ne prio state residue n hemp).2]
        exact hfix

lemma spent_map_phase1 (B : ℚ) (l : List Row) :
    spent (l.map (phase1 B))
      = (l.map (fun r =>
          ((⌊B * r.wieght / r.price⌋ : ℤ) : ℚ) * r.price)).sum := by
  unfold spent
  rw [List.map_map]
  exact congrArg List.sum (List.map_congr_left (fun r _ => rfl))

lemma phase1_spent_le (B : ℚ) (l : List Row) (hB : 0 ≤ B)
    (hp : ∀ r ∈ l, 0 < r.price) (hw : (l.map Row.wieght).sum ≤ 1) :
    spent (l.map (phase1 B)) ≤ B := by
  rw [spent_map_phase1]
  have h1 : (l.map (fun r =>
        ((⌊B * r.wieght / r.price⌋ : ℤ) : ℚ) * r.price)).sum
      ≤ (l.map (fun r => B * r.wieght)).sum := by
    refine List.sum_le_sum ?_
    intro r hr
    have hfl : ((⌊B * r.wieght / r.price⌋ : ℤ) : ℚ)
        ≤ B * r.wieght / r.price := Int.floor_le _
    have h2 := mul_le_mul_of_nonneg_right hfl (le_of_lt (hp r hr))
    rwa [div_mul_cancel₀ _ (ne_of_gt (hp r hr))] at h2
  calc (l.map (fun r =>
        ((⌊B * r.wieght / r.price⌋ : ℤ) : ℚ) * r.price)).sum
      ≤ (l.map (fun r => B * r.wieght)).sum := h1
    _ = B * (l.map Row.wieght).sum := List.sum_map_mul_left l Row.wieght B
    _ ≤ B * 1 := mul_le_mul_of_nonneg_left hw hB
    _ = B := mul_one B

/-- C1: for every allocation input with positive budget, positive prices
and final weights summing to at most 1 (index labels distinct, as in a
pandas frame), the share counts produced by `allocate_funds` — Phase-1
floors plus all Phase-2 increments — never overspend:
sum over candidates of shares times price is at most the budget. -/
theorem allocate_funds_never_overspends (df_orig : List Row) (B : ℚ)
    (hB : 0 < B) (hp : ∀ r ∈ df_orig, 0 < r.price)
    (hw : (df_orig.map Row.wieght).sum ≤ 1)
    (hidx : (df_orig.map Row.idx).Nodup) :
    spent ((allocate_funds df_orig B).1) ≤ B := by
  have hperm0 : List.Perm (sortByDesc Row.wieght df_orig) df_orig :=
    sortByDesc_perm Row.wieght df_orig
  have hpos' : ∀ x ∈ sortByDesc Row.wieght df_orig, 0 < x.price :=
    fun x hx => hp x (hperm0.subset hx)
  have hnd' : ((sortByDesc Row.wieght df_orig).map Row.idx).Nodup :=
    ((hperm0.map Row.idx).nodup_iff).2 hidx
  have hw' : ((sortByDesc Row.wieght df_orig).map Row.wieght).sum ≤ 1 := by
    rw [(hperm0.map Row.wieght).sum_eq]
    exact hw
  have hresid : 0 ≤ B
      - spent ((sortByDesc Row.wieght df_orig).map (phase1 B)) := by
    have := phase1_spent_le B (sortByDesc Row.wieght df_orig)
      (le_of_lt hB) hpos' hw'
    linarith
  have hpermst : List.Perm ((df_orig.map (phase1 B)).map rowIP)
      ((sortByDesc Row.wieght df_orig).map rowIP) := by
    rw [map_rowIP_phase1]
    exact (hperm0.map rowIP).symm
  have hinv := allocLoop_invariant (sortByDesc Row.wieght df_orig) hpos' hnd'
    (loopFuel (sortByDesc Row.wieght df_orig)
      (B - spent ((sortByDesc Row.wieght df_orig).map (phase1 B))))
    (df_orig.map (phase1 B))
    (B - spent ((sortByDesc Row.wieght df_orig).map (phase1 B)))
    hpermst hresid
  have hsp : spent (df_orig.map (phase1 B))
      = spent ((sortByDesc Row.wieght df_orig).map (phase1 B)) :=
    spent_perm ((hperm0.map (phase1 B)).symm)
  have hgoal : (allocate_funds df_orig B)
      = allocLoop (sortByDesc Row.wieght df_orig)
          (loopFuel (sortByDesc Row.wieght df_orig)
            (B - spent ((sortByDesc Row.wieght df_orig).map (phase1 B))))
          (df_orig.map (phase1 B))
          (B - spent ((sortByDesc Row.wieght df_orig).map (phase1 B))) := rfl
  rw [hgoal]
  linarith [hinv.1, hinv.2, hsp]

/-- C1 witness: a concrete two-candidate input with budget 100. -/
theorem allocate_funds_never_overspends_witness :
    spent ((allocate_funds [⟨0, 10, 1/2, 0⟩, ⟨1, 5, 1/4, 0⟩] 100).1) ≤ 100 :=
  allocate_funds_never_overspends [⟨0, 10, 1/2, 0⟩, ⟨1, 5, 1/4, 0⟩] 100
    (by decide) (by decide) (by decide) (by decide)

/-- C2 counterexample: with a single candidate (N = 1) priced 10, weight
1/4 and budget 40, Phase 2 performs 2 buying iterations (residue
30 buys one share leaving 20, which buys another leaving 10, at which
point the strict filter empties), exceeding the claimed bound of N = 1
iterations. -/
theorem alloc_iterations_exceed_candidate_count :
    [(⟨0, 10, 1/4, 0⟩ : Row)].length = 1
    ∧ (allocate_funds [⟨0, 10, 1/4, 0⟩] 40).2.2 = 2 := by
  constructor
  · rfl
  · decide

/-- C2 (amended): for every input with positive prices the Phase-2
redistribution loop terminates — it exits through the empty affordability
filter (the final residue affords no candidate) — but the number of
iterations is not bounded by the candidate count; it is bounded by the
initial residue divided by the minimum price. -/
theorem allocate_funds_redistribution_terminates (df_orig : List Row)
    (B : ℚ) (hp : ∀ r ∈ df_orig, 0 < r.price) :
    affordable (sortByDesc Row.wieght df_orig)
      ((allocate_funds df_orig B).2.1) = [] := by
  have hperm0 := sortByDesc_perm Row.wieght df_orig
  have hpos' : ∀ x ∈ sortByDesc Row.wieght df_orig, 0 < x.price :=
    fun x hx => hp x (hperm0.subset hx)
  have hgoal : (allocate_funds df_orig B)
      = allocLoop (sortByDesc Row.wieght df_orig)
          (loopFuel (sortByDesc Row.wieght df_orig)
            (B - spent ((sortByDesc Row.wieght df_orig).map (phase1 B))))
          (df_orig.map (phase1 B))
          (B - spent ((sortByDesc Row.wieght df_orig).map (phase1 B))) := rfl
  rw [hgoal]
  cases hdf : sortByDesc Row.wieght df_orig with
  | nil => rfl
  | cons x rest =>
      rw [hdf] at hpos'
      have hpm : 0 < minPriceAux x.price rest :=
        minPriceAux_pos rest x.price (hpos' x (List.mem_cons_self x rest))
          (fun r hr => hpos' r (List.mem_cons_of_mem x hr))
      have hminle := minPriceAux_le rest x.price
      have hmin : ∀ r ∈ x :: rest, minPriceAux x.price rest ≤ r.price := by
        intro r hr
        rcases List.mem_cons.1 hr with rfl | hr2
        · exact hminle.1
        · exact hminle.2 r hr2
      have hfuelrfl : loopFuel (x :: rest)
          (B - spent ((x :: rest).map (phase1 B)))
          = if 0 < minPriceAux x.price rest
              ∧ 0 < B - spent ((x :: rest).map (phase1 B))
            then (⌈(B - spent ((x :: rest).map (phase1 B)))
                / minPriceAux x.price rest⌉).toNat + 1
            else 1 := rfl
      have hfuel : (⌈(B - spent ((x :: rest).map (phase1 B)))
          / minPriceAux x.price rest⌉).toNat
          ≤ loopFuel (x :: rest) (B - spent ((x :: rest).map (phase1 B))) := by
        rw [hfuelrfl]
        by_cases hr : 0 < B - spent ((x :: rest).map (phase1 B))
        · rw [if_pos ⟨hpm, hr⟩]
          exact Nat.le_succ _
        · rw [if_neg (fun hand => hr hand.2)]
          have hd : (B - spent ((x :: rest).map (phase1 B)))
              / minPriceAux x.price rest ≤ 0 :=
            div_nonpos_of_nonpos_of_nonneg (not_lt.1 hr) (le_of_lt hpm)
          have hc : ⌈(B - spent ((x :: rest).map (phase1 B)))
              / minPriceAux x.price rest⌉ ≤ 0 :=
            Int.ceil_le.2 (by exact_mod_cast hd)
          have := Int.toNat_eq_zero.2 hc
          omega
      exact allocLoop_reaches_fixpoint (x :: rest)
        (minPriceAux x.price rest) hpm hmin hpos'
        (loopFuel (x :: rest) (B - spent ((x :: rest).map (phase1 B))))
        (df_orig.map (phase1 B))
        (B - spent ((x :: rest).map (phase1 B))) hfuel

/-- C2 amended-claim witness at the single-candidate input of the
counterexample. -/
theorem allocate_funds_redistribution_terminates_witness :
    affordable (sortByDesc Row.wieght [⟨0, 10, 1/4, 0⟩])
      ((allocate_funds [⟨0, 10, 1/4, 0⟩] 40).2.1) = [] :=
  allocate_funds_redistribution_terminates [⟨0, 10, 1/4, 0⟩] 40 (by decide)

/-- C4: a candidate whose price equals the current residue is never
purchased in Phase 2 — it passes neither the strict affordability filter
nor the strict cumulative-price prefix filter; in particular, with budget
600, a single candidate priced 300 with weight 1/2 leaves residue exactly
300 after Phase 1 and receives no Phase-2 increment (0 iterations, final
share count 1 = the Phase-1 floor), even though buying it would exactly
exhaust the residue. -/
theorem price_equal_residue_never_bought :
    (∀ (prio : List Row) (residue : ℚ) (row : Row), row.price = residue →
        row ∉ affordable prio residue
        ∧ row ∉ retainedOf (affordable prio residue) residue)
    ∧ allocate_funds [⟨0, 300, 1/2, 0⟩] 600
        = ([⟨0, 300, 1/2, 1⟩], 300, 0) := by
  constructor
  · intro prio residue row hpr
    have haff : row ∉ affordable prio residue := by
      intro hmem
      have hlt := (mem_affordable hmem).2
      rw [hpr] at hlt
      exact lt_irrefl residue hlt
    exact ⟨haff, fun hmem => haff
      ((retainedOf_sublist (affordable prio residue) residue).subset hmem)⟩
  · decide

/-- C4 witness: a row priced exactly at the residue 5 is excluded by both
filters. -/
theorem price_equal_residue_never_bought_witness :
    (⟨0, 5, 0, 0⟩ : Row) ∉ affordable [] 5
    ∧ (⟨0, 5, 0, 0⟩ : Row) ∉ retainedOf (affordable [] 5) 5 :=
  price_equal_residue_never_bought.1 [] 5 ⟨0, 5, 0, 0⟩ rfl

/-- C7 counterexample: with candidates A (price 100, weight 51/100) and
B (price 10, weight 49/100), moving the budget from 190 to 200 drops B's
share count from 18 to 9: at budget 190 Phase 1 gives A zero shares and a
residue of 100 that Phase 2 spends on 9 extra B shares, while at budget
200 Phase 1 buys one A share and leaves residue 10, which affords
nothing.  The allocation is not monotone in the budget. -/
theorem allocation_not_monotone_in_budget :
    (190 : ℚ) < 200
    ∧ (allocate_funds [⟨0, 100, 51/100, 0⟩, ⟨1, 10, 49/100, 0⟩] 190).1
        = [⟨0, 100, 51/100, 0⟩, ⟨1, 10, 49/100, 18⟩]
    ∧ (allocate_funds [⟨0, 100, 51/100, 0⟩, ⟨1, 10, 49/100, 0⟩] 200).1
        = [⟨0, 100, 51/100, 1⟩, ⟨1, 10, 49/100, 9⟩]
    ∧ (9 : ℤ) < 18 := by
  refine ⟨by decide, by decide, by decide, by decide⟩

/-- C7 (amended): only the Phase-1 floor allocation is monotone in the
budget — for a fixed row with non-negative weight and positive price,
a larger budget never lowers the Phase-1 share count.  The full
allocation including Phase-2 redistribution is not monotone. -/
theorem phase1_shares_monotone_in_budget (r : Row) (B1 B2 : ℚ)
    (hw : 0 ≤ r.wieght) (hp : 0 < r.price) (h : B1 ≤ B2) :
    (phase1 B1 r).shares ≤ (phase1 B2 r).shares := by
  show ⌊B1 * r.wieght / r.price⌋ ≤ ⌊B2 * r.wieght / r.price⌋
  apply Int.floor_le_floor
  gcongr

/-- C7 amended-claim witness. -/
theorem phase1_shares_monotone_in_budget_witness :
    (phase1 10 ⟨0, 5, 1, 0⟩).shares ≤ (phase1 20 ⟨0, 5, 1, 0⟩).shares :=
  phase1_shares_monotone_in_budget ⟨0, 5, 1, 0⟩ 10 20 (by decide)
    (by decide) (by decide)

/-- C8 counterexample: with budget -100, price 10 and weight 1/2, the
Phase-1 floor produces share count -5 (floor of -5), not 0: a negative
budget does not yield all-zero share counts. -/
theorem negative_budget_negative_shares :
    (-100 : ℚ) ≤ 0
    ∧ (allocate_funds [⟨0, 10, 1/2, 0⟩] (-100)).1 = [⟨0, 10, 1/2, -5⟩]
    ∧ (-5 : ℤ) ≠ 0 := by
  refine ⟨by decide, by decide, by decide⟩

/-- C8 (amended): for budget exactly 0 (with positive prices),
`allocate_funds` returns share count 0 for every candidate and raises no
error: every Phase-1 floor is 0, the residue is 0 and the loop exits
immediately.  For strictly negative budgets the floors are negative, so
the original claim fails there. -/
theorem allocate_funds_zero_budget_zero_shares (df_orig : List Row)
    (hp : ∀ r ∈ df_orig, 0 < r.price) :
    ∀ s ∈ (allocate_funds df_orig 0).1, s.shares = 0 := by
  have hperm0 := sortByDesc_perm Row.wieght df_orig
  have hpos' : ∀ x ∈ sortByDesc Row.wieght df_orig, 0 < x.price :=
    fun x hx => hp x (hperm0.subset hx)
  have hsp : spent ((sortByDesc Row.wieght df_orig).map (phase1 0)) = 0 := by
    unfold spent
    refine List.sum_eq_zero ?_
    intro x hx
    rw [List.map_map] at hx
    obtain ⟨r, hr, rfl⟩ := List.mem_map.1 hx
    show ((phase1 0 r).shares : ℚ) * (phase1 0 r).price = 0
    have hz : (phase1 0 r).shares = 0 := by simp [phase1]
    rw [hz]
    push_cast
    ring
  have hres0 : (0:ℚ)
      - spent ((sortByDesc Row.wieght df_orig).map (phase1 0)) = 0 := by
    rw [hsp, sub_zero]
  have haff : affordable (sortByDesc Row.wieght df_orig) 0 = [] :=
    affordable_of_nonpos _ 0 hpos' (le_refl 0)
  have hgoal : (allocate_funds df_orig 0)
      = allocLoop (sortByDesc Row.wieght df_orig)
          (loopFuel (sortByDesc Row.wieght df_orig)
            (0 - spent ((sortByDesc Row.wieght df_orig).map (phase1 0))))
          (df_orig.map (phase1 0))
          (0 - spent ((sortByDesc Row.wieght df_orig).map (phase1 0))) := rfl
  intro s hs
  rw [hgoal, hres0, allocLoop_of_affordable_empty _ _ _ _ haff] at hs
  obtain ⟨r, hr, rfl⟩ := List.mem_map.1 hs
  simp [phase1]

/-- C8 amended-claim witness at a one-candidate input. -/
theorem allocate_funds_zero_budget_zero_shares_witness :
    (⟨0, 10, 1, 0⟩ : Row).shares = 0 :=
  allocate_funds_zero_budget_zero_shares [⟨0, 10, 1, 0⟩] (by decide)
    ⟨0, 10, 1, 0⟩ (by decide)
